import Mathlib

/-!
Verification of the duplication detector in `scripts/check-dry.py`.

The Python source is shallowly embedded below. Conventions of the embedding:

* A file's `readlines()` result is a `List String` (each line keeping its
  trailing newline); the file system and I/O failures are represented by an
  `Except String` input to the extractors, mirroring the `try/except` blocks
  in the source (the only fallible operations inside the `try` bodies are the
  initial read/parse).
* `hashlib.md5(...).hexdigest()` is a pure function of the block content; it
  is modelled by an explicit parameter `md5 : String → String`.  Claims that
  rely on collision-freeness take `Function.Injective md5` as a hypothesis.
* `difflib.SequenceMatcher(None, a, b).ratio()` is modelled by an explicit
  parameter `ratio : String → String → ℚ`.  The only fact about the library
  function that the theorems below use is reflexivity (`ratio s s = 1`,
  which holds for `SequenceMatcher` applied to two identical strings); it is
  taken as a hypothesis where needed.  The whitespace normalisation that the
  source performs before calling the matcher (lines 104-105) is embedded
  concretely in `calculate_similarity`.
* Python `float` arithmetic on the scores and thresholds is modelled by `ℚ`;
  every comparison performed by the source (`>= threshold`, `< 1.0`,
  `count/len > 0.5`) is exact at the values that can occur, so no rounding
  behaviour is observable.
* Python integers are `Nat` (or `Int` where a subtraction may go negative).
-/

namespace CheckDry

/-- Python's whitespace set for `str.strip` / `str.split()`. -/
def isPyWs (c : Char) : Bool :=
  c == ' ' || c == '\t' || c == '\n' || c == '\r' || c == '\x0b' || c == '\x0c'

/-- Python `str.strip()`: drop leading and trailing whitespace. -/
def pyStrip (s : String) : String :=
  ⟨((s.data.dropWhile isPyWs).reverse.dropWhile isPyWs).reverse⟩

/-- Helper for `pySplitlines`, accumulating the current line in reverse. -/
def pySplitlinesAux : List Char → List Char → List String
  | [], acc => if acc.isEmpty then [] else [⟨acc.reverse⟩]
  | '\r' :: '\n' :: rest, acc => String.mk acc.reverse :: pySplitlinesAux rest []
  | '\n' :: rest, acc => String.mk acc.reverse :: pySplitlinesAux rest []
  | '\r' :: rest, acc => String.mk acc.reverse :: pySplitlinesAux rest []
  | c :: rest, acc => pySplitlinesAux rest (c :: acc)

/-- Python `str.splitlines()` (restricted to the line breaks that can occur
in the analysed data: `\n`, `\r`, `\r\n`). -/
def pySplitlines (s : String) : List String :=
  pySplitlinesAux s.data []

/-- Python `str.count(c)` for a single-character argument. -/
def countChar (s : String) (c : Char) : Nat :=
  s.data.count c

/-- Helper for `pySplitWs`, accumulating the current word in reverse. -/
def pySplitWsAux : List Char → List Char → List String
  | [], acc => if acc.isEmpty then [] else [⟨acc.reverse⟩]
  | c :: rest, acc =>
    if isPyWs c then
      if acc.isEmpty then pySplitWsAux rest []
      else String.mk acc.reverse :: pySplitWsAux rest []
    else pySplitWsAux rest (c :: acc)

/-- Python `str.split()` with no argument: split on whitespace runs,
dropping empty pieces. -/
def pySplitWs (s : String) : List String :=
  pySplitWsAux s.data []

/-- Lines 104-105 of the source: `" ".join(block.content.split())`. -/
def normalizeWs (s : String) : String :=
  String.intercalate " " (pySplitWs s)

/-- Line 90 of the source: `stripped.count("#") / len(stripped.splitlines()) > 0.5`.
The float division of two machine ints is exact as a comparison against 0.5
for all sizes that occur, so the test is modelled over `ℚ` (`mkRat a b` is
the rational `a / b`, with the same 0-denominator convention). -/
def commentRatioGtHalf (stripped : String) : Bool :=
  decide (mkRat (countChar stripped '#') ((pySplitlines stripped).length) > mkRat 1 2)

/-- `CodeBlock` (source lines 19-27) without the stored digest; the digest is
a pure function of `content` and is recovered by `CodeBlock.hash`. -/
structure CodeBlock where
  file_path : String
  start_line : Nat
  end_line : Nat
  content : String
deriving DecidableEq, Repr

/-- Source line 27: `self.hash = hashlib.md5(content.encode()).hexdigest()`. -/
def CodeBlock.hash (md5 : String → String) (b : CodeBlock) : String :=
  md5 b.content

/-- A recorded duplicate: source line 43, `Tuple[CodeBlock, CodeBlock, float]`. -/
abbrev Dup := CodeBlock × CodeBlock × ℚ

/-- Source lines 85-87: the stripped content of the window of `w` lines
starting at 0-based line `i`, `"".join(lines[i : i + w]).strip()`. -/
def windowContent (lines : List String) (i w : Nat) : String :=
  pyStrip (String.join ((lines.drop i).take w))

/-- Sliding-window extraction, source lines 78-95, applied to the result of a
successful `readlines()`.  Python `range(a, b)` is `List.range' a (b - a)`.
The constructed block stores `content.strip()` (source line 94). -/
def extract_code_blocks_lines (m : Nat) (fp : String) (lines : List String) : List CodeBlock :=
  if lines.length < m then []
  else
    (List.range (lines.length - m + 1)).flatMap fun i =>
      (List.range' m (min 50 (lines.length - i + 1) - m)).filterMap fun w =>
        if (windowContent lines i w).length < 20 then none
        else if commentRatioGtHalf (windowContent lines i w) then none
        else some (CodeBlock.mk fp (i + 1) (i + w) (windowContent lines i w))

/-- `extract_code_blocks` (source lines 71-99).  The fallible read is the
input; on failure the method logs one warning (modelled as the second
component) and returns no blocks. -/
def extract_code_blocks (m : Nat) (fp : String) :
    Except String (List String) → List CodeBlock × List String
  | Except.error e => ([], ["Error reading " ++ fp ++ ": " ++ e])
  | Except.ok lines => (extract_code_blocks_lines m fp lines, [])

/-- A function-like node found by `ast.walk`: its `lineno` and `end_lineno`. -/
structure FuncSpan where
  lineno : Nat
  end_lineno : Option Nat
deriving DecidableEq, Repr

/-- Python `a or b` for `a` an optional int (`None` and `0` are falsy). -/
def pyOrNat : Option Nat → Nat → Nat
  | none, d => d
  | some 0, d => d
  | some n, _ => n

/-- `extract_functions` (source lines 45-69).  A successful read+parse yields
the file's `content.splitlines()` together with the function spans that
`ast.walk` finds; a `SyntaxError` or read error is the `Except.error` case,
which logs one warning and yields no blocks. -/
def extract_functions (m : Nat) (fp : String) :
    Except String (List String × List FuncSpan) → List CodeBlock × List String
  | Except.error e => ([], ["Error processing " ++ fp ++ ": " ++ e])
  | Except.ok (srcLines, fns) =>
    (fns.filterMap fun fn =>
      let s := fn.lineno
      let e := pyOrNat fn.end_lineno s
      if (e : Int) - (s : Int) + 1 ≥ (m : Int) then
        some (CodeBlock.mk fp s e
          (String.intercalate "\n" ((srcLines.drop (s - 1)).take (e - (s - 1)))))
      else none, [])

/-- `calculate_similarity` (source lines 101-109): normalise whitespace, then
apply the sequence matcher's ratio. -/
def calculate_similarity (ratio : String → String → ℚ) (b1 b2 : CodeBlock) : ℚ :=
  ratio (normalizeWs b1.content) (normalizeWs b2.content)

/-- The nested `for i ... for block2 in self.blocks[i+1:]` enumeration of
ordered candidate pairs (source lines 140-144). -/
def allPairs : List CodeBlock → List (CodeBlock × CodeBlock)
  | [] => []
  | x :: xs => (xs.map fun y => (x, y)) ++ allPairs xs

/-- One step of building `hash_groups` (source lines 126-128): a Python dict
keyed by digest, insertion-ordered, each group keeping block order. -/
def addToGroups (md5 : String → String) :
    List (String × List CodeBlock) → CodeBlock → List (String × List CodeBlock)
  | [], b => [(b.hash md5, [b])]
  | (k, g) :: rest, b =>
    if k = b.hash md5 then (k, g ++ [b]) :: rest
    else (k, g) :: addToGroups md5 rest b

/-- `hash_groups` after the grouping loop (source lines 126-128). -/
def hashGroups (md5 : String → String) (blocks : List CodeBlock) :
    List (String × List CodeBlock) :=
  blocks.foldl (addToGroups md5) []

/-- All ordered pairs `(blocks[i], blocks[j])`, `i < j`, within one hash
group, each recorded with score 1.0 (source lines 133-136). -/
def groupPairs (g : List CodeBlock) : List Dup :=
  (allPairs g).map fun p => (p.1, p.2, (1 : ℚ))

/-- The exact-duplicate pass (source lines 130-136). -/
def exactPairs (md5 : String → String) (blocks : List CodeBlock) : List Dup :=
  (hashGroups md5 blocks).flatMap fun kg =>
    if kg.2.length > 1 then groupPairs kg.2 else []

/-- Source lines 153-156: the dedup key `f"{file_path}:{start_line}"`. -/
def pairKey (b : CodeBlock) : String :=
  b.file_path ++ ":" ++ toString b.start_line

/-- The similarity pass over the remaining candidate pairs with its
`seen_pairs` state (source lines 139-163).  Guard order follows the source:
same-file overlap first, then the seen-key check, then the threshold test. -/
def simLoop (ratio : String → String → ℚ) (thr : ℚ) :
    List (CodeBlock × CodeBlock) → List (String × String) → List Dup
  | [], _ => []
  | (b1, b2) :: rest, seen =>
    if b1.file_path = b2.file_path ∧
        ¬(b1.end_line < b2.start_line ∨ b2.end_line < b1.start_line) then
      simLoop ratio thr rest seen
    else if (pairKey b1, pairKey b2) ∈ seen then
      simLoop ratio thr rest seen
    else if thr ≤ calculate_similarity ratio b1 b2 ∧ calculate_similarity ratio b1 b2 < 1 then
      (b1, b2, calculate_similarity ratio b1 b2) ::
        simLoop ratio thr rest ((pairKey b1, pairKey b2) :: seen)
    else
      simLoop ratio thr rest seen

/-- The similarity pass started on the full block collection with an empty
`seen_pairs` set. -/
def simPairs (ratio : String → String → ℚ) (thr : ℚ) (blocks : List CodeBlock) : List Dup :=
  simLoop ratio thr (allPairs blocks) []

/-- `find_duplicates` from the point where `self.blocks` is fully populated:
the exact pass appends first, then the similarity pass (source lines 125-163,
with `self.duplicates` initially empty as in `main`). -/
def find_duplicates_from_blocks (md5 : String → String) (ratio : String → String → ℚ)
    (thr : ℚ) (blocks : List CodeBlock) : List Dup :=
  exactPairs md5 blocks ++ simPairs ratio thr blocks

/-- One input file as the detector sees it: its path and the outcome of the
two possible read strategies. -/
structure PyFile where
  path : String
  window_read : Except String (List String)
  parse_read : Except String (List String × List FuncSpan)

/-- Extraction dispatch on `use_functions` (source lines 116-120). -/
def extract_for (uf : Bool) (m : Nat) (f : PyFile) : List CodeBlock × List String :=
  if uf then extract_functions m f.path f.parse_read
  else extract_code_blocks m f.path f.window_read

/-- `self.blocks` after the extraction loop (source lines 116-121). -/
def all_blocks (uf : Bool) (m : Nat) (files : List PyFile) : List CodeBlock :=
  files.flatMap fun f => (extract_for uf m f).1

/-- Whether the relevant read for the selected mode succeeded. -/
def readOk (uf : Bool) (f : PyFile) : Bool :=
  if uf then
    match f.parse_read with
    | Except.ok _ => true
    | Except.error _ => false
  else
    match f.window_read with
    | Except.ok _ => true
    | Except.error _ => false

/-- The whole of `find_duplicates` (source lines 111-163). -/
def find_duplicates (md5 : String → String) (ratio : String → String → ℚ)
    (thr : ℚ) (uf : Bool) (m : Nat) (files : List PyFile) : List Dup :=
  find_duplicates_from_blocks md5 ratio thr (all_blocks uf m files)

/-- The exit behaviour of `main` (source lines 292-310): exit code together
with the duplicate list when the analysis ran (`none` when no input file was
found, in which case `main` exits before constructing the detector). -/
def mainRun (md5 : String → String) (ratio : String → String → ℚ)
    (thr : ℚ) (uf : Bool) (m : Nat) (files : List PyFile) : Nat × Option (List Dup) :=
  if files.isEmpty then (1, none)
  else
    let dups := find_duplicates md5 ratio thr uf m files
    (if dups.isEmpty then 0 else 1, some dups)

/-- The comparison used by `print_report`'s sort (source line 177):
descending similarity score. -/
def byScoreDesc (a b : Dup) : Prop := b.2.2 ≤ a.2.2

instance : DecidableRel byScoreDesc :=
  fun a b => inferInstanceAs (Decidable (b.2.2 ≤ a.2.2))

instance : IsTotal Dup byScoreDesc := ⟨fun a b => le_total b.2.2 a.2.2⟩

instance : IsTrans Dup byScoreDesc := ⟨fun _ _ _ hab hbc => le_trans hbc hab⟩

/-- `sorted(self.duplicates, key=lambda x: x[2], reverse=True)` (source line
177).  Python's `sorted` is a stable sort; with `reverse=True` equal keys
keep their original order, which is exactly a stable descending sort, here
realised by insertion sort (any two stable descending sorts of a list are
equal as lists). -/
def sorted_dupes (dups : List Dup) : List Dup :=
  List.insertionSort byScoreDesc dups

/-- Two ordered pairs of blocks describe the same unordered pair. -/
def sameUnordered (p q : CodeBlock × CodeBlock) : Prop :=
  (p.1 = q.1 ∧ p.2 = q.2) ∨ (p.1 = q.2 ∧ p.2 = q.1)

instance (p q : CodeBlock × CodeBlock) : Decidable (sameUnordered p q) :=
  inferInstanceAs (Decidable ((p.1 = q.1 ∧ p.2 = q.2) ∨ (p.1 = q.2 ∧ p.2 = q.1)))

/-- The blocks stored across all hash groups, in group order. -/
def groupsFlat (gs : List (String × List CodeBlock)) : List CodeBlock :=
  gs.flatMap fun kg => kg.2

/-! Concrete data used by the witnesses and counterexamples below. -/

/-- A collision-free stand-in for the digest function. -/
def md5id : String → String := id

/-- A reflexive stand-in for the sequence-matcher ratio. -/
def ratioEq : String → String → ℚ := fun a b => if a = b then 1 else 0

/-- The `readlines()` result of a five-line file. -/
def wLines : List String := List.replicate 5 "abcde\n"

/-- A one-file input whose window-mode read succeeds. -/
def wFile : PyFile := PyFile.mk "a.py" (Except.ok wLines) (Except.ok ([], []))

/-- The single block that window-mode extraction finds in `wFile`. -/
def wBlock : CodeBlock := CodeBlock.mk "a.py" 1 5 "abcde\nabcde\nabcde\nabcde\nabcde"

/-- Two blocks in different files with identical content. -/
def wb1 : CodeBlock := CodeBlock.mk "a.py" 1 5 "hello world content one"

/-- See `wb1`. -/
def wb2 : CodeBlock := CodeBlock.mk "b.py" 1 5 "hello world content one"

/-- Two same-file blocks with disjoint line ranges and distinct content. -/
def wc1 : CodeBlock := CodeBlock.mk "c.py" 1 5 "first shared chunk"

/-- See `wc1`. -/
def wc2 : CodeBlock := CodeBlock.mk "c.py" 10 14 "second shared chunk"

/-- A six-line file of identical lines: overlapping windows of it have
byte-identical stripped content. -/
def cexFile : PyFile :=
  PyFile.mk "f.py" (Except.ok (List.replicate 6 "abcd\n")) (Except.ok ([], []))

/-- The window of lines 1-5 of `cexFile`. -/
def cexA : CodeBlock := CodeBlock.mk "f.py" 1 5 "abcd\nabcd\nabcd\nabcd\nabcd"

/-- The window of lines 2-6 of `cexFile`: same file as `cexA`, overlapping
range, identical content. -/
def cexB : CodeBlock := CodeBlock.mk "f.py" 2 6 "abcd\nabcd\nabcd\nabcd\nabcd"

/-- A 51-line file on which the claimed 50-line window is missing. -/
def cexLong : List String := List.replicate 51 "z\n"

/-! Basic lemmas about the candidate-pair enumeration and the similarity
pass. -/

theorem mem_allPairs : ∀ {l : List CodeBlock} {p : CodeBlock × CodeBlock},
    p ∈ allPairs l → p.1 ∈ l ∧ p.2 ∈ l := by
  intro l
  induction l with
  | nil => intro p h; simp [allPairs] at h
  | cons x xs ih =>
    intro p h
    rw [allPairs, List.mem_append] at h
    rcases h with h | h
    · rcases List.mem_map.mp h with ⟨y, hy, rfl⟩
      exact ⟨List.mem_cons_self x xs, List.mem_cons_of_mem x hy⟩
    · rcases ih h with ⟨h1, h2⟩
      exact ⟨List.mem_cons_of_mem x h1, List.mem_cons_of_mem x h2⟩

theorem allPairs_pairwise : ∀ {l : List CodeBlock}, l.Nodup →
    (allPairs l).Pairwise fun p q => ¬ sameUnordered p q := by
  intro l
  induction l with
  | nil => intro _; simp [allPairs]
  | cons x xs ih =>
    intro hnd
    rcases List.nodup_cons.mp hnd with ⟨hx, hxs⟩
    rw [allPairs, List.pairwise_append]
    refine ⟨?_, ih hxs, ?_⟩
    · rw [List.pairwise_map]
      refine List.Pairwise.imp_of_mem ?_ hxs
      intro y1 y2 hy1 hy2 hne hsame
      rcases hsame with ⟨_, h2⟩ | ⟨h1, _⟩
      · exact hne h2
      · have hxy : x = y2 := h1
        exact hx (hxy ▸ hy2)
    · intro a ha b hb hsame
      rcases List.mem_map.mp ha with ⟨y, _, rfl⟩
      rcases mem_allPairs hb with ⟨hb1, hb2⟩
      rcases hsame with ⟨h1, _⟩ | ⟨h1, _⟩
      · have hxb : x = b.1 := h1
        exact hx (hxb ▸ hb1)
      · have hxb : x = b.2 := h1
        exact hx (hxb ▸ hb2)

/-- Every pair the similarity pass records was a candidate, is not a
same-file overlap, and carries the similarity score of its two blocks,
which lies in `[threshold, 1)`. -/
theorem mem_simLoop {ratio : String → String → ℚ} {thr : ℚ} :
    ∀ (cands : List (CodeBlock × CodeBlock)) (seen : List (String × String)) {d : Dup},
      d ∈ simLoop ratio thr cands seen →
      (d.1, d.2.1) ∈ cands ∧
      ¬(d.1.file_path = d.2.1.file_path ∧
          ¬(d.1.end_line < d.2.1.start_line ∨ d.2.1.end_line < d.1.start_line)) ∧
      thr ≤ d.2.2 ∧ d.2.2 < 1 ∧ d.2.2 = calculate_similarity ratio d.1 d.2.1 := by
  intro cands
  induction cands with
  | nil => intro seen d h; simp [simLoop] at h
  | cons p rest ih =>
    intro seen d h
    obtain ⟨b1, b2⟩ := p
    rw [simLoop] at h
    split at h
    · rcases ih seen h with ⟨h1, h2⟩
      exact ⟨List.mem_cons_of_mem _ h1, h2⟩
    · split at h
      · rcases ih seen h with ⟨h1, h2⟩
        exact ⟨List.mem_cons_of_mem _ h1, h2⟩
      · split at h
        · rcases List.mem_cons.mp h with rfl | h
          · rename_i hov _ hsim
            exact ⟨List.mem_cons_self _ _, hov, hsim.1, hsim.2, rfl⟩
          · rcases ih _ h with ⟨h1, h2⟩
            exact ⟨List.mem_cons_of_mem _ h1, h2⟩
        · rcases ih seen h with ⟨h1, h2⟩
          exact ⟨List.mem_cons_of_mem _ h1, h2⟩

/-- Forgetting scores, the similarity pass records a subsequence of its
candidate list: each candidate contributes at most one recorded pair, in
order. -/
theorem simLoop_sublist {ratio : String → String → ℚ} {thr : ℚ} :
    ∀ (cands : List (CodeBlock × CodeBlock)) (seen : List (String × String)),
      ((simLoop ratio thr cands seen).map fun d => (d.1, d.2.1)).Sublist cands := by
  intro cands
  induction cands with
  | nil => intro seen; simp [simLoop]
  | cons p rest ih =>
    intro seen
    obtain ⟨b1, b2⟩ := p
    rw [simLoop]
    split
    · exact (ih seen).cons _
    · split
      · exact (ih seen).cons _
      · split
        · exact (ih _).cons₂ _
        · exact (ih seen).cons _

/-- The dedup keys of the pairs recorded by the similarity pass are distinct
and avoid the initial `seen` set. -/
theorem simLoop_keys {ratio : String → String → ℚ} {thr : ℚ} :
    ∀ (cands : List (CodeBlock × CodeBlock)) (seen : List (String × String)),
      ((simLoop ratio thr cands seen).map fun d => (pairKey d.1, pairKey d.2.1)).Nodup ∧
      ∀ k ∈ (simLoop ratio thr cands seen).map fun d => (pairKey d.1, pairKey d.2.1),
        k ∉ seen := by
  intro cands
  induction cands with
  | nil => intro seen; simp [simLoop]
  | cons p rest ih =>
    intro seen
    obtain ⟨b1, b2⟩ := p
    rw [simLoop]
    split
    · exact ih seen
    · split
      · exact ih seen
      · split
        · rename_i hseen _
          rcases ih ((pairKey b1, pairKey b2) :: seen) with ⟨ihnd, ihseen⟩
          constructor
          · rw [List.map_cons, List.nodup_cons]
            refine ⟨fun hmem => ?_, ihnd⟩
            exact ihseen _ hmem (List.mem_cons_self _ _)
          · intro k hk
            rw [List.map_cons, List.mem_cons] at hk
            rcases hk with rfl | hk
            · exact hseen
            · intro hkseen
              exact ihseen k hk (List.mem_cons_of_mem _ hkseen)
        · exact ih seen

/-! Lemmas about the hash grouping of the exact-duplicate pass. -/

theorem mem_groupsFlat {gs : List (String × List CodeBlock)}
    {kg : String × List CodeBlock} (hkg : kg ∈ gs) {b : CodeBlock} (hb : b ∈ kg.2) :
    b ∈ groupsFlat gs :=
  List.mem_flatMap.mpr ⟨kg, hkg, hb⟩

theorem perm_append_singleton (b : CodeBlock) (g R : List CodeBlock) :
    ((g ++ [b]) ++ R).Perm ((g ++ R) ++ [b]) := by
  rw [List.append_assoc, List.append_assoc]
  exact List.perm_append_comm.append_left g

theorem groupsFlat_addToGroups (md5 : String → String) :
    ∀ (gs : List (String × List CodeBlock)) (b : CodeBlock),
      (groupsFlat (addToGroups md5 gs b)).Perm (groupsFlat gs ++ [b]) := by
  intro gs
  induction gs with
  | nil =>
    intro b
    simp [groupsFlat, addToGroups]
  | cons kg rest ih =>
    intro b
    obtain ⟨k, g⟩ := kg
    rw [addToGroups]
    split
    · simp only [groupsFlat, List.flatMap_cons]
      exact perm_append_singleton b g _
    · simp only [groupsFlat, List.flatMap_cons]
      have h2 := (ih b).append_left g
      simp only [groupsFlat] at h2
      rw [← List.append_assoc] at h2
      exact h2

theorem groupsFlat_foldl (md5 : String → String) :
    ∀ (bs : List CodeBlock) (gs : List (String × List CodeBlock)),
      (groupsFlat (bs.foldl (addToGroups md5) gs)).Perm (groupsFlat gs ++ bs) := by
  intro bs
  induction bs with
  | nil => intro gs; simp
  | cons b bs ih =>
    intro gs
    rw [List.foldl_cons]
    have h3 := (ih (addToGroups md5 gs b)).trans
      ((groupsFlat_addToGroups md5 gs b).append_right bs)
    rw [List.append_assoc] at h3
    simpa using h3

/-- `hash_groups` holds a permutation of `self.blocks`. -/
theorem groupsFlat_hashGroups (md5 : String → String) (blocks : List CodeBlock) :
    (groupsFlat (hashGroups md5 blocks)).Perm blocks := by
  have h := groupsFlat_foldl md5 blocks []
  simpa [groupsFlat, hashGroups] using h

theorem addToGroups_key (md5 : String → String) :
    ∀ (gs : List (String × List CodeBlock)) (b : CodeBlock),
      (∀ kg ∈ gs, ∀ x ∈ kg.2, x.hash md5 = kg.1) →
      ∀ kg ∈ addToGroups md5 gs b, ∀ x ∈ kg.2, x.hash md5 = kg.1 := by
  intro gs
  induction gs with
  | nil =>
    intro b _ kg hkg x hx
    rw [addToGroups] at hkg
    rcases List.mem_singleton.mp hkg with rfl
    rcases List.mem_singleton.mp hx with rfl
    rfl
  | cons kg0 rest ih =>
    intro b hinv kg hkg x hx
    obtain ⟨k, g⟩ := kg0
    rw [addToGroups] at hkg
    by_cases hk : k = b.hash md5
    · rw [if_pos hk] at hkg
      rcases List.mem_cons.mp hkg with rfl | hkg
      · rcases List.mem_append.mp hx with hx | hx
        · exact hinv (k, g) (List.mem_cons_self _ _) x hx
        · rcases List.mem_singleton.mp hx with rfl
          exact hk.symm
      · exact hinv kg (List.mem_cons_of_mem _ hkg) x hx
    · rw [if_neg hk] at hkg
      rcases List.mem_cons.mp hkg with rfl | hkg
      · exact hinv (k, g) (List.mem_cons_self _ _) x hx
      · exact ih b (fun kg' hkg' => hinv kg' (List.mem_cons_of_mem _ hkg')) kg hkg x hx

/-- Every block stored in a hash group has that group's key as its digest. -/
theorem hashGroups_key (md5 : String → String) (blocks : List CodeBlock) :
    ∀ kg ∈ hashGroups md5 blocks, ∀ x ∈ kg.2, x.hash md5 = kg.1 := by
  have main : ∀ (bs : List CodeBlock) (gs : List (String × List CodeBlock)),
      (∀ kg ∈ gs, ∀ x ∈ kg.2, x.hash md5 = kg.1) →
      ∀ kg ∈ bs.foldl (addToGroups md5) gs, ∀ x ∈ kg.2, x.hash md5 = kg.1 := by
    intro bs
    induction bs with
    | nil => intro gs hinv; exact hinv
    | cons b bs ih =>
      intro gs hinv
      rw [List.foldl_cons]
      exact ih _ (addToGroups_key md5 gs b hinv)
  exact main blocks [] (by intro kg hkg; simp at hkg)

/-- If the concatenation of the groups is duplicate-free then every group is
duplicate-free and distinct groups are disjoint. -/
theorem groups_of_nodup :
    ∀ gs : List (String × List CodeBlock), (groupsFlat gs).Nodup →
      (∀ kg ∈ gs, kg.2.Nodup) ∧
      gs.Pairwise fun kg1 kg2 => ∀ x ∈ kg1.2, x ∉ kg2.2 := by
  intro gs
  induction gs with
  | nil => intro _; exact ⟨by intro kg h; simp at h, List.Pairwise.nil⟩
  | cons kg0 rest ih =>
    intro hnd
    rw [groupsFlat, List.flatMap_cons, List.nodup_append] at hnd
    rcases hnd with ⟨h1, h2, hdisj⟩
    rcases ih h2 with ⟨ihall, ihpw⟩
    refine ⟨?_, ?_⟩
    · intro kg hkg
      rcases List.mem_cons.mp hkg with rfl | hkg
      · exact h1
      · exact ihall kg hkg
    · rw [List.pairwise_cons]
      refine ⟨?_, ihpw⟩
      intro kg' hkg' x hx hx'
      exact hdisj hx (mem_groupsFlat hkg' hx')

/-! Lemmas about the exact-duplicate pass. -/

theorem mem_exactPairs {md5 : String → String} {blocks : List CodeBlock} {d : Dup}
    (h : d ∈ exactPairs md5 blocks) :
    ∃ kg ∈ hashGroups md5 blocks, (d.1, d.2.1) ∈ allPairs kg.2 ∧ d.2.2 = 1 := by
  rw [exactPairs, List.mem_flatMap] at h
  rcases h with ⟨kg, hkg, hd⟩
  refine ⟨kg, hkg, ?_⟩
  split at hd
  · rw [groupPairs, List.mem_map] at hd
    rcases hd with ⟨p, hp, rfl⟩
    exact ⟨hp, rfl⟩
  · simp at hd

/-- Both blocks of an exact-pass pair carry the same digest, and the score
is 1. -/
theorem exactPairs_hash_eq {md5 : String → String} {blocks : List CodeBlock} {d : Dup}
    (h : d ∈ exactPairs md5 blocks) :
    d.1.hash md5 = d.2.1.hash md5 ∧ d.2.2 = 1 := by
  rcases mem_exactPairs h with ⟨kg, hkg, hp, hs⟩
  rcases mem_allPairs hp with ⟨h1, h2⟩
  have k1 := hashGroups_key md5 blocks kg hkg _ h1
  have k2 := hashGroups_key md5 blocks kg hkg _ h2
  exact ⟨k1.trans k2.symm, hs⟩

/-- Pairwise-over-concatenation helper. -/
theorem pairwise_flatMap {α β : Type} {R : β → β → Prop} {f : α → List β} :
    ∀ {l : List α}, (∀ a ∈ l, (f a).Pairwise R) →
      (l.Pairwise fun a b => ∀ x ∈ f a, ∀ y ∈ f b, R x y) →
      (l.flatMap f).Pairwise R := by
  intro l
  induction l with
  | nil => intro _ _; simp
  | cons a l ih =>
    intro hall hpw
    rw [List.flatMap_cons, List.pairwise_append]
    rcases List.pairwise_cons.mp hpw with ⟨hhead, htail⟩
    refine ⟨hall a (List.mem_cons_self _ _), ih (fun b hb => hall b (List.mem_cons_of_mem _ hb)) htail, ?_⟩
    intro x hx y hy
    rcases List.mem_flatMap.mp hy with ⟨b, hb, hyb⟩
    exact hhead b hb x hx y hyb

/-- With duplicate-free blocks, no unordered pair of blocks is recorded
twice by the exact-duplicate pass. -/
theorem exactPairs_pairwise {md5 : String → String} {blocks : List CodeBlock}
    (hnd : blocks.Nodup) :
    (exactPairs md5 blocks).Pairwise fun d e =>
      ¬ sameUnordered (d.1, d.2.1) (e.1, e.2.1) := by
  have hflat : (groupsFlat (hashGroups md5 blocks)).Nodup :=
    ((groupsFlat_hashGroups md5 blocks).symm).nodup hnd
  rcases groups_of_nodup _ hflat with ⟨hgnd, hgdisj⟩
  rw [exactPairs]
  refine pairwise_flatMap ?_ ?_
  · intro kg hkg
    split
    · rw [groupPairs, List.pairwise_map]
      refine (allPairs_pairwise (hgnd kg hkg)).imp ?_
      intro p q h
      exact h
    · exact List.Pairwise.nil
  · refine hgdisj.imp_of_mem ?_
    intro kg1 kg2 hkg1 hkg2 hdisj d hd e he hsame
    have hd' : d ∈ groupPairs kg1.2 := by
      revert hd; split
      · exact id
      · intro h; simp at h
    have he' : e ∈ groupPairs kg2.2 := by
      revert he; split
      · exact id
      · intro h; simp at h
    rw [groupPairs, List.mem_map] at hd' he'
    rcases hd' with ⟨p, hp, rfl⟩
    rcases he' with ⟨q, hq, rfl⟩
    rcases mem_allPairs hp with ⟨hp1, _⟩
    rcases mem_allPairs hq with ⟨hq1, hq2⟩
    rcases hsame with ⟨h1, _⟩ | ⟨h1, _⟩
    · have : p.1 = q.1 := h1
      exact hdisj p.1 hp1 (this ▸ hq1)
    · have : p.1 = q.2 := h1
      exact hdisj p.1 hp1 (this ▸ hq2)

/-! Lemmas combining the two passes. -/

/-- With duplicate-free blocks, no unordered pair of blocks is recorded
twice by the similarity pass. -/
theorem simPairs_pairwise {ratio : String → String → ℚ} {thr : ℚ}
    {blocks : List CodeBlock} (hnd : blocks.Nodup) :
    (simPairs ratio thr blocks).Pairwise fun d e =>
      ¬ sameUnordered (d.1, d.2.1) (e.1, e.2.1) := by
  have h1 := List.Pairwise.sublist (@simLoop_sublist ratio thr (allPairs blocks) [])
    (allPairs_pairwise hnd)
  rw [List.pairwise_map] at h1
  rw [simPairs]
  exact h1

/-- A pair recorded by the similarity pass has distinct digests, assuming a
collision-free digest and a reflexive similarity ratio. -/
theorem simPairs_hash_ne {md5 : String → String} {ratio : String → String → ℚ}
    {thr : ℚ} {blocks : List CodeBlock} (hinj : Function.Injective md5)
    (hrefl : ∀ s, ratio s s = 1) {d : Dup} (h : d ∈ simPairs ratio thr blocks) :
    d.1.hash md5 ≠ d.2.1.hash md5 := by
  rcases mem_simLoop _ _ h with ⟨_, _, _, hlt, heq⟩
  intro hhash
  have hc : d.1.content = d.2.1.content := hinj hhash
  rw [heq, calculate_similarity, hc, hrefl] at hlt
  exact lt_irrefl 1 hlt

/-- Core of claim C6: the duplicates list never records an unordered pair of
blocks twice, across both passes. -/
theorem find_duplicates_from_blocks_pairwise {md5 : String → String}
    {ratio : String → String → ℚ} {thr : ℚ} {blocks : List CodeBlock}
    (hinj : Function.Injective md5) (hrefl : ∀ s, ratio s s = 1)
    (hnd : blocks.Nodup) :
    (find_duplicates_from_blocks md5 ratio thr blocks).Pairwise fun d e =>
      ¬ sameUnordered (d.1, d.2.1) (e.1, e.2.1) := by
  rw [find_duplicates_from_blocks, List.pairwise_append]
  refine ⟨exactPairs_pairwise hnd, simPairs_pairwise hnd, ?_⟩
  intro d hd e he hsame
  rcases exactPairs_hash_eq hd with ⟨hhash, _⟩
  have hne := simPairs_hash_ne hinj hrefl he
  rcases hsame with ⟨h1, h2⟩ | ⟨h1, h2⟩
  · have e1 : d.1 = e.1 := h1
    have e2 : d.2.1 = e.2.1 := h2
    apply hne
    rw [← e1, ← e2]
    exact hhash
  · have e1 : d.1 = e.2.1 := h1
    have e2 : d.2.1 = e.1 := h2
    apply hne
    rw [← e2, ← e1]
    exact hhash.symm

/-! Characterisation of window-mode extraction. -/

theorem mem_extract_code_blocks_lines {m : Nat} {fp : String} {lines : List String}
    {b : CodeBlock} :
    b ∈ extract_code_blocks_lines m fp lines ↔
    ∃ i w, m ≤ w ∧ w ≤ 49 ∧ i + w ≤ lines.length ∧
      ¬ (windowContent lines i w).length < 20 ∧
      commentRatioGtHalf (windowContent lines i w) = false ∧
      b = CodeBlock.mk fp (i + 1) (i + w) (windowContent lines i w) := by
  constructor
  · intro hmem
    rw [extract_code_blocks_lines] at hmem
    split at hmem
    · simp at hmem
    · rename_i hlen
      rw [List.mem_flatMap] at hmem
      rcases hmem with ⟨i, hi, hin⟩
      rw [List.mem_range] at hi
      rw [List.mem_filterMap] at hin
      rcases hin with ⟨w, hw, hsome⟩
      rw [List.mem_range'_1] at hw
      by_cases h20 : (windowContent lines i w).length < 20
      · rw [if_pos h20] at hsome
        exact absurd hsome (by simp)
      · rw [if_neg h20] at hsome
        by_cases hcr : commentRatioGtHalf (windowContent lines i w) = true
        · rw [if_pos hcr] at hsome
          exact absurd hsome (by simp)
        · rw [if_neg hcr] at hsome
          have hb := Option.some.inj hsome
          refine ⟨i, w, hw.1, by omega, by omega, h20, by simpa using hcr, hb.symm⟩
  · rintro ⟨i, w, hmw, hw49, hiw, h20, hcr, rfl⟩
    rw [extract_code_blocks_lines, if_neg (by omega)]
    rw [List.mem_flatMap]
    refine ⟨i, List.mem_range.mpr (by omega), ?_⟩
    rw [List.mem_filterMap]
    refine ⟨w, List.mem_range'_1.mpr ⟨hmw, by omega⟩, ?_⟩
    rw [if_neg h20, if_neg (by simp [hcr])]

/-! Lemmas about the run wrappers. -/

theorem extract_for_err : ∀ (uf : Bool) (m : Nat) (f : PyFile),
    readOk uf f = false → (extract_for uf m f).1 = [] := by
  intro uf m f h
  obtain ⟨p, wr, pr⟩ := f
  cases uf
  · cases wr with
    | ok lines => simp [readOk] at h
    | error e => rfl
  · cases pr with
    | ok d => simp [readOk] at h
    | error e => rfl

/-- Files whose read fails contribute nothing: the block collection is the
one obtained from the successfully read files alone. -/
theorem all_blocks_filter (uf : Bool) (m : Nat) :
    ∀ files : List PyFile,
      all_blocks uf m files = all_blocks uf m (files.filter (readOk uf)) := by
  intro files
  induction files with
  | nil => rfl
  | cons f files ih =>
    by_cases hok : readOk uf f = true
    · simp only [all_blocks, List.filter_cons_of_pos hok, List.flatMap_cons]
      exact congrArg (fun t => (extract_for uf m f).1 ++ t)
        (by simpa only [all_blocks] using ih)
    · have hko : readOk uf f = false := by
        revert hok; cases readOk uf f <;> simp
      simp only [all_blocks, List.filter_cons_of_neg hok, List.flatMap_cons,
        extract_for_err uf m f hko, List.nil_append]
      simpa only [all_blocks] using ih

/-! Sort stability for the report (source line 177). -/

theorem filter_orderedInsert_same (x : Dup) :
    ∀ l : List Dup,
      (List.orderedInsert byScoreDesc x l).filter (fun d => decide (d.2.2 = x.2.2)) =
        x :: l.filter fun d => decide (d.2.2 = x.2.2) := by
  intro l
  induction l with
  | nil =>
    rw [List.orderedInsert]
    simp only [List.filter_cons, List.filter_nil, decide_eq_true_eq]
    rw [if_pos trivial]
  | cons y l ih =>
    rw [List.orderedInsert]
    split
    · simp only [List.filter_cons, decide_eq_true_eq]
      rw [if_pos trivial]
    · rename_i hn
      have hy : ¬ (y.2.2 = x.2.2) := fun he => hn (le_of_eq he)
      simp only [List.filter_cons, decide_eq_true_eq]
      rw [if_neg hy, if_neg hy, ih]

theorem filter_orderedInsert_other (x : Dup) (s : ℚ) (hs : ¬ (x.2.2 = s)) :
    ∀ l : List Dup,
      (List.orderedInsert byScoreDesc x l).filter (fun d => decide (d.2.2 = s)) =
        l.filter fun d => decide (d.2.2 = s) := by
  intro l
  induction l with
  | nil =>
    rw [List.orderedInsert]
    simp only [List.filter_cons, List.filter_nil, decide_eq_true_eq]
    rw [if_neg hs]
  | cons y l ih =>
    rw [List.orderedInsert]
    split
    · simp only [List.filter_cons, decide_eq_true_eq]
      rw [if_neg hs]
    · simp only [List.filter_cons, decide_eq_true_eq]
      by_cases hy : y.2.2 = s
      · rw [if_pos hy, if_pos hy, ih]
      · rw [if_neg hy, if_neg hy, ih]

/-- Stability: for every score value, the report's sort preserves the
original (discovery) order of the pairs carrying that score. -/
theorem sorted_dupes_filter (dups : List Dup) (s : ℚ) :
    (sorted_dupes dups).filter (fun d => decide (d.2.2 = s)) =
      dups.filter fun d => decide (d.2.2 = s) := by
  induction dups with
  | nil => rfl
  | cons a l ih =>
    by_cases ha : a.2.2 = s
    · subst ha
      rw [sorted_dupes, List.insertionSort, filter_orderedInsert_same, ← sorted_dupes, ih]
      simp only [List.filter_cons, decide_eq_true_eq]
      rw [if_pos trivial]
    · rw [sorted_dupes, List.insertionSort, filter_orderedInsert_other a s ha,
        ← sorted_dupes, ih]
      simp only [List.filter_cons, decide_eq_true_eq]
      rw [if_neg ha]

/-! The claims. -/

theorem ratioEq_refl : ∀ s, ratioEq s s = 1 := by
  intro s
  simp [ratioEq]

/-- C1: for every two CodeBlocks constructed during one run (in either
extraction mode), their fingerprints (the MD5 digest of the stored content,
source line 27) are equal if and only if their raw content is byte-identical,
treating the MD5 digest as collision-free (`Function.Injective md5`). -/
theorem claim_C1 : ∀ (md5 : String → String) (uf : Bool) (m : Nat)
    (files : List PyFile) (b1 b2 : CodeBlock), Function.Injective md5 →
    b1 ∈ all_blocks uf m files → b2 ∈ all_blocks uf m files →
    (b1.hash md5 = b2.hash md5 ↔ b1.content = b2.content) :=
  fun md5 _ _ _ _ _ hinj _ _ => ⟨fun h => hinj h, fun h => congrArg md5 h⟩

theorem claim_C1_witness :
    wBlock ∈ all_blocks false 5 [wFile] ∧
    (wBlock.hash md5id = wBlock.hash md5id ↔ wBlock.content = wBlock.content) :=
  ⟨by decide,
   claim_C1 md5id false 5 [wFile] wBlock wBlock (fun _ _ h => h) (by decide) (by decide)⟩

/-- C2 (counterexample): the claim says no same-file pair of blocks with
overlapping line ranges is ever recorded by either pass.  On the 6-line file
`cexFile` of identical lines, window-mode extraction yields the overlapping
same-file windows `cexA` (lines 1-5) and `cexB` (lines 2-6) with identical
stripped content, and the exact-duplicate pass records the pair `(cexA,
cexB, 1.0)`: the exact pass has no same-file-overlap guard (source lines
130-136). -/
theorem claim_C2_counterexample :
    (cexA, cexB, (1 : ℚ)) ∈ find_duplicates md5id ratioEq (mkRat 8 10) false 5 [cexFile] ∧
    cexA.file_path = cexB.file_path ∧
    ¬(cexA.end_line < cexB.start_line ∨ cexB.end_line < cexA.start_line) := by
  refine ⟨by decide, rfl, ?_⟩
  decide

/-- C2 (amended): blocks from the same file with overlapping line ranges are
never paired by the similarity pass (source lines 144-150); the
exact-duplicate pass performs no such check, so same-file overlapping blocks
with identical content are still recorded by it. -/
theorem claim_C2_amended : ∀ (ratio : String → String → ℚ) (thr : ℚ)
    (blocks : List CodeBlock) (b1 b2 : CodeBlock) (sc : ℚ),
    (b1, b2, sc) ∈ simPairs ratio thr blocks → b1.file_path = b2.file_path →
    b1.end_line < b2.start_line ∨ b2.end_line < b1.start_line := by
  intro ratio thr blocks b1 b2 sc h hfile
  rcases mem_simLoop _ _ h with ⟨_, hov, _⟩
  by_contra hnd
  exact hov ⟨hfile, hnd⟩

theorem claim_C2_amended_witness :
    wc1.end_line < wc2.start_line ∨ wc2.end_line < wc1.start_line :=
  claim_C2_amended (fun _ _ => mkRat 9 10) (mkRat 8 10) [wc1, wc2] wc1 wc2
    (mkRat 9 10) (by decide) rfl

/-- C3: a recorded DuplicatePair has score 1.0 iff its two blocks'
fingerprints are equal, and every pair recorded with score below 1.0
satisfies `threshold ≤ score < 1.0` with the score computed by the
similarity engine over whitespace-normalised text (never from fingerprint
comparison).  The digest is assumed collision-free and the library ratio
reflexive (both hold for `hashlib.md5` modulo collisions and for
`difflib.SequenceMatcher`). -/
theorem claim_C3 : ∀ (md5 : String → String) (ratio : String → String → ℚ)
    (thr : ℚ) (blocks : List CodeBlock) (b1 b2 : CodeBlock) (sc : ℚ),
    Function.Injective md5 → (∀ s, ratio s s = 1) →
    (b1, b2, sc) ∈ find_duplicates_from_blocks md5 ratio thr blocks →
    ((sc = 1 ↔ b1.hash md5 = b2.hash md5) ∧
     (sc ≠ 1 → thr ≤ sc ∧ sc < 1 ∧ sc = calculate_similarity ratio b1 b2)) := by
  intro md5 ratio thr blocks b1 b2 sc hinj hrefl h
  rw [find_duplicates_from_blocks, List.mem_append] at h
  rcases h with h | h
  · rcases exactPairs_hash_eq h with ⟨hhash, hsc⟩
    exact ⟨⟨fun _ => hhash, fun _ => hsc⟩, fun hne => absurd hsc hne⟩
  · rcases mem_simLoop _ _ h with ⟨_, _, hthr, hlt, heq⟩
    have hne := simPairs_hash_ne hinj hrefl h
    refine ⟨⟨fun h1 => ?_, fun hh => absurd hh hne⟩, fun _ => ⟨hthr, hlt, heq⟩⟩
    rw [h1] at hlt
    exact absurd hlt (lt_irrefl 1)

theorem claim_C3_witness :
    ((1 : ℚ) = 1 ↔ wb1.hash md5id = wb2.hash md5id) ∧
    ((1 : ℚ) ≠ 1 → mkRat 8 10 ≤ 1 ∧ (1 : ℚ) < 1 ∧
      (1 : ℚ) = calculate_similarity ratioEq wb1 wb2) :=
  claim_C3 md5id ratioEq (mkRat 8 10) [wb1, wb2] wb1 wb2 1 (fun _ _ h => h)
    ratioEq_refl (by decide)

/-- C4 (counterexample): the claim says window-mode emits a block for every
pair (start, window size) with `min_lines ≤ window size ≤ 50` that fits the
file and passes the content filters.  With `min_lines = 49` on the 51-line
file `cexLong`, the window of size exactly 50 at start 0 fits and passes
both filters, yet no extracted block spans lines 1-50: the source's
`range(self.min_lines, min(50, ...))` (line 84) excludes its upper bound, so
no window ever has 50 lines. -/
theorem claim_C4_counterexample :
    (49 ≤ 50 ∧ 50 ≤ 50 ∧ 0 + 50 ≤ cexLong.length ∧
      ¬ (windowContent cexLong 0 50).length < 20 ∧
      commentRatioGtHalf (windowContent cexLong 0 50) = false) ∧
    ((extract_code_blocks_lines 49 "f.py" cexLong).all
      fun b => !(b.start_line == 1 && b.end_line == 50)) = true := by
  decide

/-- C4 (amended): in window-mode, for every file with at least `min_lines`
lines a candidate block is generated for every pair (0-based start line `i`,
window size `w`) with `min_lines ≤ w ≤ 49` (the 50-line cap is exclusive)
and `i + w` not exceeding the file length, subject only to the two content
filters; a file with fewer than `min_lines` lines yields zero blocks. -/
theorem claim_C4_amended :
    (∀ (m : Nat) (fp : String) (lines : List String) (i w : Nat),
      m ≤ w → w ≤ 49 → i + w ≤ lines.length →
      ¬ (windowContent lines i w).length < 20 →
      commentRatioGtHalf (windowContent lines i w) = false →
      CodeBlock.mk fp (i + 1) (i + w) (windowContent lines i w) ∈
        extract_code_blocks_lines m fp lines) ∧
    (∀ (m : Nat) (fp : String) (lines : List String),
      lines.length < m → extract_code_blocks_lines m fp lines = []) := by
  constructor
  · intro m fp lines i w h1 h2 h3 h4 h5
    exact mem_extract_code_blocks_lines.mpr ⟨i, w, h1, h2, h3, h4, h5, rfl⟩
  · intro m fp lines h
    rw [extract_code_blocks_lines, if_pos h]

theorem claim_C4_amended_witness :
    CodeBlock.mk "a.py" (0 + 1) (0 + 5) (windowContent wLines 0 5) ∈
      extract_code_blocks_lines 5 "a.py" wLines ∧
    extract_code_blocks_lines 5 "q.py" ["ab\n"] = [] :=
  ⟨claim_C4_amended.1 5 "a.py" wLines 0 5 (by decide) (by decide) (by decide)
      (by decide) (by decide),
   claim_C4_amended.2 5 "q.py" ["ab\n"] (by decide)⟩

/-- C5: a window-mode candidate block is rejected exactly when its stripped
content is shorter than 20 characters or its ratio of `#`-count to line
count exceeds 0.5 (source lines 86-91); every other candidate in range is
kept. -/
theorem claim_C5 : ∀ (m : Nat) (fp : String) (lines : List String) (i w : Nat),
    m ≤ w → w ≤ 49 → i + w ≤ lines.length →
    (CodeBlock.mk fp (i + 1) (i + w) (windowContent lines i w) ∈
        extract_code_blocks_lines m fp lines ↔
      ¬((windowContent lines i w).length < 20 ∨
        commentRatioGtHalf (windowContent lines i w) = true)) := by
  intro m fp lines i w hmw hw49 hiw
  constructor
  · intro hmem
    rcases mem_extract_code_blocks_lines.mp hmem with ⟨i2, w2, _, _, _, h20, hcr, heq⟩
    rw [CodeBlock.mk.injEq] at heq
    obtain ⟨_, hstart, hend, _⟩ := heq
    have hi2 : i2 = i := by omega
    have hw2 : w2 = w := by omega
    subst hi2
    subst hw2
    intro hor
    rcases hor with h | h
    · exact h20 h
    · rw [hcr] at h
      exact Bool.false_ne_true h
  · intro hrej
    rw [not_or] at hrej
    obtain ⟨h20, hcr⟩ := hrej
    rw [Bool.not_eq_true] at hcr
    exact mem_extract_code_blocks_lines.mpr ⟨i, w, hmw, hw49, hiw, h20, hcr, rfl⟩

theorem claim_C5_witness :
    CodeBlock.mk "h.py" (0 + 1) (0 + 5)
        (windowContent (List.replicate 5 "#####\n") 0 5) ∈
      extract_code_blocks_lines 5 "h.py" (List.replicate 5 "#####\n") ↔
    ¬((windowContent (List.replicate 5 "#####\n") 0 5).length < 20 ∨
      commentRatioGtHalf (windowContent (List.replicate 5 "#####\n") 0 5) = true) :=
  claim_C5 5 "h.py" (List.replicate 5 "#####\n") 0 5 (by decide) (by decide) (by decide)

/-- C6: during one run no unordered pair of blocks is recorded in the
duplicates list more than once, in either orientation or across the two
passes.  Hypotheses: the digest is collision-free, the library ratio is
reflexive, and the extracted block collection holds no two identical
blocks (true of a run, where distinct files have distinct paths and blocks
of one file have distinct line ranges). -/
theorem claim_C6 : ∀ (md5 : String → String) (ratio : String → String → ℚ)
    (thr : ℚ) (blocks : List CodeBlock),
    Function.Injective md5 → (∀ s, ratio s s = 1) → blocks.Nodup →
    (find_duplicates_from_blocks md5 ratio thr blocks).Pairwise fun d e =>
      ¬ sameUnordered (d.1, d.2.1) (e.1, e.2.1) :=
  fun _ _ _ _ hinj hrefl hnd => find_duplicates_from_blocks_pairwise hinj hrefl hnd

theorem claim_C6_witness :
    (find_duplicates_from_blocks md5id ratioEq (mkRat 8 10) [wb1, wb2]).Pairwise
      (fun d e => ¬ sameUnordered (d.1, d.2.1) (e.1, e.2.1)) :=
  claim_C6 md5id ratioEq (mkRat 8 10) [wb1, wb2] (fun _ _ h => h) ratioEq_refl
    (by decide)

/-- C7: the process exits non-zero exactly when the recorded duplicate set
is non-empty or no input file was found; with an empty input file set it
exits 1 before any analysis (the detector is never run, modelled by the
`none` second component), and otherwise the analysis result is produced
(source lines 292-310). -/
theorem claim_C7 : ∀ (md5 : String → String) (ratio : String → String → ℚ)
    (thr : ℚ) (uf : Bool) (m : Nat) (files : List PyFile),
    ((mainRun md5 ratio thr uf m files).1 ≠ 0 ↔
      (files = [] ∨ find_duplicates md5 ratio thr uf m files ≠ [])) ∧
    (files = [] → mainRun md5 ratio thr uf m files = (1, none)) ∧
    (files ≠ [] → (mainRun md5 ratio thr uf m files).2 =
      some (find_duplicates md5 ratio thr uf m files)) := by
  intro md5 ratio thr uf m files
  cases files with
  | nil =>
    refine ⟨?_, fun _ => rfl, fun h => absurd rfl h⟩
    simp [mainRun]
  | cons f fs =>
    refine ⟨?_, fun h => absurd h (by simp), fun _ => rfl⟩
    by_cases hd : find_duplicates md5 ratio thr uf m (f :: fs) = []
    · simp [mainRun, hd]
    · simp [mainRun, hd]

theorem claim_C7_witness :
    mainRun md5id ratioEq (mkRat 8 10) false 5 [] = (1, none) ∧
    (mainRun md5id ratioEq (mkRat 8 10) false 5 [wFile]).2 =
      some (find_duplicates md5id ratioEq (mkRat 8 10) false 5 [wFile]) :=
  ⟨(claim_C7 md5id ratioEq (mkRat 8 10) false 5 []).2.1 rfl,
   (claim_C7 md5id ratioEq (mkRat 8 10) false 5 [wFile]).2.2 (by simp)⟩

/-- C8: a file whose read or parse fails contributes zero blocks and one
logged warning, in either mode, and `find_duplicates` computes the same
duplicate list as if the failing files were absent — failures never
propagate (the embedding of the `try/except` bodies is total). -/
theorem claim_C8 :
    (∀ (m : Nat) (fp e : String),
      extract_code_blocks m fp (Except.error e) =
        ([], ["Error reading " ++ fp ++ ": " ++ e])) ∧
    (∀ (m : Nat) (fp e : String),
      extract_functions m fp (Except.error e) =
        ([], ["Error processing " ++ fp ++ ": " ++ e])) ∧
    (∀ (md5 : String → String) (ratio : String → String → ℚ) (thr : ℚ)
        (uf : Bool) (m : Nat) (files : List PyFile),
      find_duplicates md5 ratio thr uf m files =
        find_duplicates md5 ratio thr uf m (files.filter (readOk uf))) :=
  ⟨fun _ _ _ => rfl, fun _ _ _ => rfl,
   fun md5 ratio thr uf m files => by
    rw [find_duplicates, find_duplicates, all_blocks_filter uf m files]⟩

/-- C9: the report's ordering of the recorded pairs is by similarity score
descending, a permutation of the duplicate list, and stable: for each score
value, the pairs carrying it appear in their original discovery order
(source line 177, Python's stable `sorted` with `reverse=True`). -/
theorem claim_C9 : ∀ dups : List Dup,
    List.Sorted byScoreDesc (sorted_dupes dups) ∧
    (sorted_dupes dups).Perm dups ∧
    ∀ s : ℚ, (sorted_dupes dups).filter (fun d => decide (d.2.2 = s)) =
      dups.filter fun d => decide (d.2.2 = s) :=
  fun dups =>
    ⟨List.sorted_insertionSort byScoreDesc dups,
     List.perm_insertionSort byScoreDesc dups,
     fun s => sorted_dupes_filter dups s⟩

/-- C10: similarity-pass dedup is keyed only by the ordered pair of
`(file_path, start_line)` strings: the recorded pairs carry pairwise
distinct key pairs (so once a key pair is recorded, no later candidate with
the same keys — including a distinct block sharing the start line with a
different end line — is ever recorded), and a candidate whose key pair is
already in `seen_pairs` is skipped without its similarity being consulted
(the ratio function is arbitrary in the equation). -/
theorem claim_C10 :
    (∀ (ratio : String → String → ℚ) (thr : ℚ) (blocks : List CodeBlock),
      ((simPairs ratio thr blocks).map fun d => (pairKey d.1, pairKey d.2.1)).Nodup) ∧
    (∀ (ratio : String → String → ℚ) (thr : ℚ) (b1 b2 : CodeBlock)
        (rest : List (CodeBlock × CodeBlock)) (seen : List (String × String)),
      ¬(b1.file_path = b2.file_path ∧
          ¬(b1.end_line < b2.start_line ∨ b2.end_line < b1.start_line)) →
      (pairKey b1, pairKey b2) ∈ seen →
      simLoop ratio thr ((b1, b2) :: rest) seen = simLoop ratio thr rest seen) := by
  constructor
  · intro ratio thr blocks
    rw [simPairs]
    exact (simLoop_keys (allPairs blocks) []).1
  · intro ratio thr b1 b2 rest seen hov hseen
    rw [simLoop, if_neg hov, if_pos hseen]

theorem claim_C10_witness :
    simLoop ratioEq (mkRat 8 10) [(wc1, wc2)] [(pairKey wc1, pairKey wc2)] =
      simLoop ratioEq (mkRat 8 10) [] [(pairKey wc1, pairKey wc2)] :=
  claim_C10.2 ratioEq (mkRat 8 10) wc1 wc2 [] [(pairKey wc1, pairKey wc2)]
    (by decide) (by decide)

end CheckDry
